import Mathlib

/-!
Shallow embedding of the `product_scraper` Scrapy project
(`pipelines.py`, `loaders.py`, `items.py`, `spiders/sitemap_spider.py`,
`spiders/product_spider.py`) together with theorems settling the frozen
claims about its natural-language specification.

Python strings are modelled as Lean `String`, Python `None` as `Option`,
Python sets as `Finset`, raised exceptions as `Except` errors, and the
itemloaders `MapCompose(str.strip)` / `TakeFirst()` processors as explicit
functions on lists of values.
-/

namespace ProductScraper

/-! ## Python string helpers -/

/-- Characters treated as whitespace by Python `str.strip()` (the subset
relevant to this code base). -/
def isPySpace (c : Char) : Bool :=
  c = ' ' || c = '\t' || c = '\n' || c = '\r'

/-- Model of Python `str.strip()` on the character list: drop leading and
trailing whitespace. -/
def pyStripList (cs : List Char) : List Char :=
  ((cs.dropWhile isPySpace).reverse.dropWhile isPySpace).reverse

/-- Model of Python `str.strip()`. -/
def pyStrip (s : String) : String :=
  ⟨pyStripList s.data⟩

/-- Model of the itemloaders `TakeFirst()` output processor: the first
collected value that is neither `None` nor the empty string (`None`
values never enter the collected list in this model). -/
def takeFirst (vs : List String) : Option String :=
  vs.find? (fun v => !(v == ""))

/-- Model of Python `str.join`: `sep.join(parts)`. -/
def pyJoin (sep : String) : List String → String
  | [] => ""
  | [p] => p
  | p :: q :: rest => p ++ sep ++ pyJoin sep (q :: rest)

/-- Check that `needle` occurs at the start of `hay` (character lists). -/
def startsWithChars : List Char → List Char → Bool
  | [], _ => true
  | _ :: _, [] => false
  | a :: as, b :: bs => a == b && startsWithChars as bs

/-- Check that `needle` occurs somewhere in `hay` (character lists). -/
def containsChars (needle : List Char) : List Char → Bool
  | [] => startsWithChars needle []
  | c :: rest => startsWithChars needle (c :: rest) || containsChars needle rest

/-- Model of the Python substring test `needle in hay`. -/
def pyContains (hay needle : String) : Bool :=
  containsChars needle.data hay.data

/-! ## Data model: `items.py` and `loaders.py`

`ProductItem` declares ten fields; after loading through `ProductLoader`
(whose `default_output_processor` is `TakeFirst()`) every field holds at
most one string, so the loaded record is ten `Option String` fields. -/

structure ProductRecord where
  name : Option String := none
  url : Option String := none
  sku : Option String := none
  productID : Option String := none
  image : Option String := none
  price : Option String := none
  description : Option String := none
  main_category : Option String := none
  sub_categories : Option String := none
  variant_name : Option String := none
deriving DecidableEq

/-! ## Dedup/Reporting stage: `pipelines.py` -/

/-- State of `ProductScraperPipeline`: the `seen_skus` set and the
`stats` dictionary (`item.get('sku')` can be `None`, hence the key type
`Option String`). -/
structure PipelineState where
  seen_skus : Finset (Option String)
  processed : Nat
  dropped : Nat
  errors : Nat
deriving DecidableEq

/-- The `__init__` state of `ProductScraperPipeline`. -/
def initPipeline : PipelineState :=
  { seen_skus := ∅, processed := 0, dropped := 0, errors := 0 }

/-- Embedding of `ProductScraperPipeline.process_item`: returns the new
state and whether the item was accepted (`true`) or dropped via
`DropItem` (`false`). -/
def process_item (st : PipelineState) (item : ProductRecord) : PipelineState × Bool :=
  if item.sku ∈ st.seen_skus then
    ({ st with dropped := st.dropped + 1 }, false)
  else
    ({ st with seen_skus := insert item.sku st.seen_skus,
               processed := st.processed + 1 }, true)

/-- Run the pipeline over a stream of records, collecting the final state
and the accepted records (the final feed) in order. -/
def runPipeline (st : PipelineState) : List ProductRecord → PipelineState × List ProductRecord
  | [] => (st, [])
  | r :: rs =>
    let step := process_item st r
    let rest := runPipeline step.1 rs
    (rest.1, if step.2 then r :: rest.2 else rest.2)

/-- Specification-side restatement of the dedup policy: keep exactly the
first record bearing each sku, drop every later one. -/
def keepFirstBySku (seen : Finset (Option String)) : List ProductRecord → List ProductRecord
  | [] => []
  | r :: rs =>
    if r.sku ∈ seen then keepFirstBySku seen rs
    else r :: keepFirstBySku (insert r.sku seen) rs

/-! ## Crawler stats and `close_spider` / `handle_error` -/

/-- The slice of Scrapy's stats collector touched by this project.
`inc_value` on a missing key starts from `0`, so `product_page_errors`
is modelled as a plain counter. -/
structure CrawlerStats where
  products_processed : Option Nat
  products_dropped_duplicates : Option Nat
  product_page_errors : Nat
deriving DecidableEq

/-- Stats collector at crawl start. -/
def statsInit : CrawlerStats :=
  { products_processed := none, products_dropped_duplicates := none,
    product_page_errors := 0 }

/-- Embedding of `ProductSpider.handle_error`: one failed page request
increments the `product_page_errors` stat. -/
def handle_error (cs : CrawlerStats) : CrawlerStats :=
  { cs with product_page_errors := cs.product_page_errors + 1 }

/-- Embedding of `ProductScraperPipeline.close_spider`: pushes the
pipeline's own counters into the stats collector with `set_value`,
overwriting whatever value `product_page_errors` held. -/
def close_spider (st : PipelineState) (cs : CrawlerStats) : CrawlerStats :=
  { cs with products_processed := some st.processed,
            products_dropped_duplicates := some st.dropped,
            product_page_errors := st.errors }

/-! ## URL Collector: `spiders/sitemap_spider.py` -/

/-- Embedding of the filter in `SitemapSpider.parse_sitemap`: a page
location is followed as a product URL exactly when `"-p-" in url`. -/
def isProductUrl (u : String) : Bool :=
  pyContains u "-p-"

/-- Embedding of `SitemapSpider.parse_sitemap`: the product URLs requested
from a child sitemap's page locations. -/
def parse_sitemap (pageUrls : List String) : List String :=
  pageUrls.filter isProductUrl

/-- Accumulation of `self.collected_urls` over a crawl run: every URL
passed to `self.collected_urls.add` (base product URLs and resolved
variant hrefs alike), folded into the set. -/
def collectRun (urls : List String) : Finset String :=
  urls.foldl (fun s u => insert u s) ∅

/-- Embedding of `SitemapSpider.closed`: the list serialized to
`product_data/product_links.json` is `sorted(self.collected_urls)`. -/
def closedOutput (s : Finset String) : List String :=
  s.sort (· ≤ ·)

/-- Specification-side definition of a URL's path (the spec's words:
"`-p-` present in the path"): everything from the first `/` after the
`://` scheme separator. -/
def afterSchemeSep : List Char → List Char
  | ':' :: '/' :: '/' :: rest => rest
  | _ :: rest => afterSchemeSep rest
  | [] => []

/-- Specification-side path of a URL. -/
def specUrlPath (u : String) : String :=
  ⟨(afterSchemeSep u.data).dropWhile (fun c => !(c == '/'))⟩

/-! ## Product Extractor startup: `ProductSpider.start_requests` -/

/-- Possible states of the `product_links.json` input file. -/
inductive UrlFile where
  | missing : UrlFile
  | badJson : UrlFile
  | ok : List String → UrlFile
deriving DecidableEq

/-- Embedding of `ProductSpider.start_requests`: the URLs for which a
`SeleniumRequest` is issued. A missing file (`FileNotFoundError`) or
invalid JSON (`json.JSONDecodeError`) is caught, logged, and yields no
requests. -/
def start_requests (f : UrlFile) : List String :=
  match f with
  | .missing => []
  | .badJson => []
  | .ok urls => urls

/-! ## Product page model: `spiders/product_spider.py`

A rendered product page is modelled by the state of its two embedded
JSON-LD script elements and of the variant-selection region. A script
element is either absent (the bounded `WebDriverWait` expires and raises
`TimeoutException`), present with empty `innerHTML`, present but failing
`json.loads`, or present with parsed content. -/

structure StructuredData where
  name : Option String := none
  url : Option String := none
  sku : Option String := none
  productID : Option String := none
  image : Option String := none
  price : Option String := none
  description : Option String := none
deriving DecidableEq

inductive ScriptState (α : Type) where
  | absentMarker : ScriptState α
  | emptyContent : ScriptState α
  | malformed : ScriptState α
  | ok : α → ScriptState α
deriving DecidableEq

/-- One entry of the breadcrumb `itemListElement` list. -/
structure Crumb where
  name : Option String := none
deriving DecidableEq

/-- One clickable variant option element; `clickLabel` is the text of its
`div[class*="relative"]` child read back after the click (`none` when
that child is missing and `find_element` raises). -/
structure OptionElem where
  clickLabel : Option String := none
deriving DecidableEq

/-- One variant feature group (`mb-3` block): its caption element's text
(`none` when the caption element is missing and `find_element` raises)
and its option elements. -/
structure Feature where
  caption : Option String := none
  options : List OptionElem := []
deriving DecidableEq

structure Page where
  sd : ScriptState StructuredData
  bc : ScriptState (List Crumb)
  variantRegion : Option (List Feature)
deriving DecidableEq

/-- The only exception that escapes `parse_product_data`: the bounded wait
expiring. `json.JSONDecodeError`, `TypeError` and `KeyError` are caught
inside it. -/
inductive PyError where
  | timeout : PyError
deriving DecidableEq

/-- Values collected by `loader.add_value` for a field whose input
processor is `MapCompose(str.strip)` (a `None` value adds nothing). -/
def inputStripped (v : Option String) : List String :=
  (v.map pyStrip).toList

/-- Values collected by `loader.add_value` for a field whose input
processor is `Identity()`. -/
def inputIdentity (v : Option String) : List String :=
  v.toList

/-- Fields loaded from the product structured-data block (nothing is
added when the block is absent, empty or malformed). -/
def sdFields : ScriptState StructuredData → ProductRecord
  | .ok d =>
    { name := takeFirst (inputStripped d.name)
      url := takeFirst (inputStripped d.url)
      sku := takeFirst (inputIdentity d.sku)
      productID := takeFirst (inputIdentity d.productID)
      image := takeFirst (inputStripped d.image)
      price := takeFirst (inputIdentity d.price)
      description := takeFirst (inputIdentity d.description) }
  | _ => {}

/-- Breadcrumb policy of `parse_product_data`: with at least 3 entries,
entry 1 is the main category and the truthy names among entries
`[2:-1]` are collected as sub-categories; with exactly 2 entries only
the main category is set. The loaded `sub_categories` field is the
result of `TakeFirst()` over those collected values. -/
def bcApply : ScriptState (List Crumb) → ProductRecord → ProductRecord
  | .ok crumbs, r =>
    if 3 ≤ crumbs.length then
      { r with
        main_category := takeFirst (inputStripped ((crumbs.get? 1).bind (fun c => c.name)))
        sub_categories := takeFirst
          ((((crumbs.drop 2).dropLast.filterMap (fun c => c.name)).filter
              (fun s => !(s == ""))).map pyStrip) }
    else if crumbs.length = 2 then
      { r with
        main_category := takeFirst (inputStripped ((crumbs.get? 1).bind (fun c => c.name))) }
    else r
  | _, r => r

/-- Embedding of `ProductSpider.parse_product_data`: waits for the two
script markers (an expired wait raises `TimeoutException`, which is not
among the caught exception classes), then loads the record. -/
def parse_product_data (p : Page) : Except PyError ProductRecord :=
  match p.sd, p.bc with
  | .absentMarker, _ => .error .timeout
  | _, .absentMarker => .error .timeout
  | sdSt, bcSt => .ok (bcApply bcSt (sdFields sdSt))

/-! ## Variant enumeration -/

/-- Python `\w` character class (word characters), as used by the caption
pattern. -/
def isWordChar (c : Char) : Bool :=
  c.isAlphanum || c = '_'

/-- A character matched by `[\w\s]`. -/
def isWordOrSpace (c : Char) : Bool :=
  isWordChar c || isPySpace c

/-- Left-to-right scan implementing `re.findall` for the caption pattern
of one-or-more word/space characters followed by a colon: `run` holds
the current candidate group in reverse. -/
def findallAux : List Char → List Char → List (List Char)
  | _, [] => []
  | run, c :: rest =>
    if isWordOrSpace c then findallAux (c :: run) rest
    else if c = ':' then
      if run.isEmpty then findallAux [] rest
      else run.reverse :: findallAux [] rest
    else findallAux [] rest

/-- All groups matched by the caption pattern in a caption text. -/
def findallNameGroups (cs : List Char) : List (List Char) :=
  findallAux [] cs

/-- Feature display name: `' '.join(re.findall(...))` over the caption. -/
def featureName (caption : String) : String :=
  pyJoin " " ((findallNameGroups caption.data).map (fun g => ⟨g⟩))

/-- Scanning one feature group: reading the caption (raising when the
caption element is absent, which aborts the whole variant step) and
collecting the option elements and the derived feature name. -/
def scanFeature (f : Feature) : Option (List OptionElem × String) :=
  (f.caption).map (fun c => (f.options, featureName c))

/-- The scan loop over all feature groups; a raise anywhere aborts the
whole variant step before anything was emitted. -/
def scanFeatures : List Feature → Option (List (List OptionElem × String))
  | [] => some []
  | f :: fs =>
    match scanFeature f, scanFeatures fs with
    | some g, some gs => some (g :: gs)
    | _, _ => none

/-- Cartesian product of index lists in `itertools.product` order (the
rightmost factor varies fastest). -/
def cartesian : List (List Nat) → List (List Nat)
  | [] => [[]]
  | g :: gs => g.flatMap (fun x => (cartesian gs).map (fun c => x :: c))

/-- Click/read phase for one combination: for each feature in order, the
chosen option is clicked and its displayed label read back; a missing
label element raises, aborting the combination (and with it, variant
emission). On success, the "Feature: Label" parts in feature order. -/
def comboParts : List (List OptionElem × String) → List Nat → Option (List String)
  | [], [] => some []
  | g :: gs, j :: js =>
    match (g.1.get? j).bind (fun o => o.clickLabel) with
    | none => none
    | some l => (comboParts gs js).map (fun ps => (g.2 ++ ": " ++ l) :: ps)
  | _, _ => none

/-- One variant record: every field of the freshly re-extracted base item
is passed through the loader again (stripping string fields), then
`variant_name` is set to the joined combination string. -/
def mkVariantRecord (base : ProductRecord) (vn : String) : ProductRecord :=
  { name := base.name.bind (fun s => takeFirst [pyStrip s])
    url := base.url.bind (fun s => takeFirst [pyStrip s])
    sku := base.sku.bind (fun s => takeFirst [s])
    productID := base.productID.bind (fun s => takeFirst [s])
    image := base.image.bind (fun s => takeFirst [pyStrip s])
    price := base.price.bind (fun s => takeFirst [s])
    description := base.description.bind (fun s => takeFirst [s])
    main_category := base.main_category.bind (fun s => takeFirst [pyStrip s])
    sub_categories := base.sub_categories.bind (fun s => takeFirst [pyStrip s])
    variant_name := takeFirst [pyStrip vn] }

/-- The per-combination loop of `parse_product_variants`: any exception
(failed click/read, or `parse_product_data` raising on re-extraction)
stops emission; already-emitted records stand. -/
def emitVariants (p : Page) (gs : List (List OptionElem × String)) :
    List (List Nat) → List ProductRecord
  | [] => []
  | c :: rest =>
    match comboParts gs c with
    | none => []
    | some parts =>
      match parse_product_data p with
      | .error _ => []
      | .ok base =>
        mkVariantRecord base (pyJoin " | " parts) :: emitVariants p gs rest

/-- Embedding of `ProductSpider.parse_product_variants`: all exceptions
are caught inside it — an absent variant region (expired wait), a
missing caption, a failed click/read or a raising re-extraction all end
emission with a logged warning. -/
def parse_product_variants (p : Page) : List ProductRecord :=
  match p.variantRegion with
  | none => []
  | some features =>
    match scanFeatures features with
    | none => []
    | some gs => emitVariants p gs (cartesian (gs.map (fun g => List.range g.1.length)))

/-- The displayed labels of a group's options as the code would read them
back (a missing label element modelled as the empty string). -/
def labelsOf (os : List OptionElem) : List String :=
  os.map (fun o => (o.clickLabel).getD "")

/-- A displayed option label that keeps joined variant names
reconstructible: non-empty, already stripped, and free of the `|`
separator character. -/
def goodLabel (l : String) : Prop :=
  l ≠ "" ∧ pyStrip l = l ∧ '|' ∉ l.data

/-- A feature group whose displayed option labels are pairwise distinct
and individually good. -/
def goodGroup (g : List OptionElem × String) : Prop :=
  (labelsOf g.1).Nodup ∧ ∀ l ∈ labelsOf g.1, goodLabel l

/-- The "Feature: Label" parts a combination produces, as a total
function (missing labels read as the empty string). -/
def partsOf : List (List OptionElem × String) → List Nat → List String
  | g :: gs, j :: js =>
    (g.2 ++ ": " ++ (((g.1.get? j).bind (fun o => o.clickLabel)).getD "")) :: partsOf gs js
  | _, _ => []

/-- What `ProductSpider.parse` yields to the crawling engine: its first
`yield self.parse_product_data(driver)` yields the generator object
returned by the generator function `parse_product_data` (not the record
that generator would produce), then `yield from parse_product_variants`
yields the variant records. -/
inductive Emitted where
  | genObj : Emitted
  | record : ProductRecord → Emitted
deriving DecidableEq

/-- Embedding of `ProductSpider.parse`. -/
def parse (p : Page) : List Emitted :=
  Emitted.genObj :: (parse_product_variants p).map Emitted.record

/-! ## Concrete pages for scenarios -/

/-- A page whose structured-data marker never appears. -/
def pageNoMarker : Page :=
  { sd := .absentMarker, bc := .emptyContent, variantRegion := none }

/-- A breadcrumb trail with five named entries. -/
def crumbs5 : List Crumb :=
  [{ name := some "Home" }, { name := some "Lighting" }, { name := some "Indoor" },
   { name := some "Ceiling" }, { name := some "Lamp X" }]

/-- A page carrying the five-entry breadcrumb trail. -/
def pageCrumbs5 : Page :=
  { sd := .emptyContent, bc := .ok crumbs5, variantRegion := none }

/-- A well-formed structured-data block. -/
def sdOk : StructuredData := { sku := some "SKU1", name := some "Lamp" }

/-- A page that extracts cleanly and has no variant region. -/
def pageOk : Page := { sd := .ok sdOk, bc := .emptyContent, variantRegion := none }

/-- A variant feature group whose two options display the same label. -/
def dupLabelFeature : Feature :=
  { caption := some "Color:",
    options := [{ clickLabel := some "Red" }, { clickLabel := some "Red" }] }

/-- A page whose variant region holds one feature group with two
identically-labelled options. -/
def pageDupLabels : Page :=
  { sd := .emptyContent, bc := .emptyContent, variantRegion := some [dupLabelFeature] }

/-- A variant feature group with two distinct, well-behaved labels. -/
def goodFeature : Feature :=
  { caption := some "Color:",
    options := [{ clickLabel := some "Red" }, { clickLabel := some "Blue" }] }

/-- A page whose variant region holds the well-behaved feature group. -/
def pageGoodVariants : Page :=
  { sd := .emptyContent, bc := .emptyContent, variantRegion := some [goodFeature] }

/-- The scanned groups of `pageGoodVariants`. -/
def gsGood : List (List OptionElem × String) :=
  [([{ clickLabel := some "Red" }, { clickLabel := some "Blue" }], "Color")]

/-! ## Concrete records for scenarios -/

/-- First record of the duplicate-sku scenario. -/
def recSkuA : ProductRecord := { sku := some "SKU1", name := some "First" }

/-- Second record of the duplicate-sku scenario: same sku. -/
def recSkuB : ProductRecord := { sku := some "SKU1", name := some "Second" }

/-- A pipeline state that has already accepted one record with sku `SKU1`. -/
def stW : PipelineState :=
  { seen_skus := {some "SKU1"}, processed := 1, dropped := 0, errors := 0 }

/-! ## Pipeline lemmas -/

theorem runPipeline_eq_keepFirst (st : PipelineState) (items : List ProductRecord) :
    (runPipeline st items).2 = keepFirstBySku st.seen_skus items := by
  induction items generalizing st with
  | nil => rfl
  | cons r rs ih =>
    by_cases h : r.sku ∈ st.seen_skus
    · simp [runPipeline, keepFirstBySku, process_item, h, ih]
    · simp [runPipeline, keepFirstBySku, process_item, h, ih]

theorem runPipeline_processed (st : PipelineState) (items : List ProductRecord) :
    (runPipeline st items).1.processed = st.processed + (runPipeline st items).2.length := by
  induction items generalizing st with
  | nil => simp [runPipeline]
  | cons r rs ih =>
    by_cases h : r.sku ∈ st.seen_skus
    · simpa [runPipeline, process_item, h] using ih { st with dropped := st.dropped + 1 }
    · have := ih { st with seen_skus := insert r.sku st.seen_skus, processed := st.processed + 1 }
      simp [runPipeline, process_item, h] at this ⊢
      omega

theorem runPipeline_dropped (st : PipelineState) (items : List ProductRecord) :
    (runPipeline st items).1.dropped + (runPipeline st items).2.length
      = st.dropped + items.length := by
  induction items generalizing st with
  | nil => simp [runPipeline]
  | cons r rs ih =>
    by_cases h : r.sku ∈ st.seen_skus
    · have := ih { st with dropped := st.dropped + 1 }
      simp [runPipeline, process_item, h] at this ⊢
      omega
    · have := ih { st with seen_skus := insert r.sku st.seen_skus, processed := st.processed + 1 }
      simp [runPipeline, process_item, h] at this ⊢
      omega

theorem keepFirst_sku_nodup (seen : Finset (Option String)) (items : List ProductRecord) :
    ((keepFirstBySku seen items).map (fun r => r.sku)).Nodup
    ∧ ∀ s ∈ (keepFirstBySku seen items).map (fun r => r.sku), s ∉ seen := by
  induction items generalizing seen with
  | nil => simp [keepFirstBySku]
  | cons r rs ih =>
    by_cases h : r.sku ∈ seen
    · simpa [keepFirstBySku, h] using ih seen
    · obtain ⟨hnd, hmem⟩ := ih (insert r.sku seen)
      refine ⟨?_, ?_⟩
      · simp only [keepFirstBySku, if_neg h, List.map_cons, List.nodup_cons]
        refine ⟨fun hr => ?_, hnd⟩
        exact hmem r.sku hr (Finset.mem_insert_self _ _)
      · intro s hs
        simp only [keepFirstBySku, if_neg h, List.map_cons, List.mem_cons] at hs
        rcases hs with hs | hs
        · simpa [hs] using h
        · exact fun hcon => hmem s hs (Finset.mem_insert_of_mem hcon)

theorem runPipeline_card_invariant (st : PipelineState) (items : List ProductRecord)
    (h : st.processed = st.seen_skus.card) :
    (runPipeline st items).1.processed = ((runPipeline st items).1.seen_skus).card := by
  induction items generalizing st with
  | nil => exact h
  | cons r rs ih =>
    by_cases hm : r.sku ∈ st.seen_skus
    · simp only [runPipeline, process_item, if_pos hm]
      exact ih { st with dropped := st.dropped + 1 } h
    · simp only [runPipeline, process_item, if_neg hm]
      apply ih
      simp [Finset.card_insert_of_not_mem hm, h]

/-! ## Claim theorems: Dedup/Reporting stage -/

/-- C1: in the Dedup/Reporting stage, the first record bearing each sku is
accepted and every later record with the same sku is dropped (the feed
equals the keep-first-occurrence filter of the stream), so feed skus are
pairwise distinct, the processed counter counts exactly the accepted
records and the dropped counter the rest; submitting two records with
sku "SKU1" yields processed = 1 and dropped = 1. -/
theorem dedup_first_accepted_duplicates_dropped :
    (∀ items : List ProductRecord,
        (runPipeline initPipeline items).2 = keepFirstBySku ∅ items
        ∧ (((runPipeline initPipeline items).2).map (fun r => r.sku)).Nodup
        ∧ (runPipeline initPipeline items).1.processed
            = ((runPipeline initPipeline items).2).length
        ∧ (runPipeline initPipeline items).1.dropped
            + ((runPipeline initPipeline items).2).length = items.length)
    ∧ (runPipeline initPipeline [recSkuA, recSkuB]).1.processed = 1
    ∧ (runPipeline initPipeline [recSkuA, recSkuB]).1.dropped = 1 := by
  refine ⟨fun items => ⟨?_, ?_, ?_, ?_⟩, by decide, by decide⟩
  · exact runPipeline_eq_keepFirst initPipeline items
  · rw [runPipeline_eq_keepFirst initPipeline items]
    exact (keepFirst_sku_nodup ∅ items).1
  · simpa [initPipeline] using runPipeline_processed initPipeline items
  · simpa [initPipeline] using runPipeline_dropped initPipeline items

/-- C10: after any run of `process_item` calls from the initial state the
processed counter equals the size of the seen-sku set, a single call
preserves that invariant, and a call that rejects a duplicate changes
only the dropped counter (the seen set and the processed counter are
untouched) and returns the drop outcome. -/
theorem processed_equals_seen_card :
    (∀ items : List ProductRecord,
        (runPipeline initPipeline items).1.processed
          = ((runPipeline initPipeline items).1.seen_skus).card)
    ∧ (∀ (st : PipelineState) (r : ProductRecord), st.processed = st.seen_skus.card →
        (process_item st r).1.processed = ((process_item st r).1.seen_skus).card)
    ∧ (∀ (st : PipelineState) (r : ProductRecord), r.sku ∈ st.seen_skus →
        (process_item st r).1 = { st with dropped := st.dropped + 1 }
        ∧ (process_item st r).2 = false) := by
  refine ⟨fun items => runPipeline_card_invariant initPipeline items (by simp [initPipeline]),
    fun st r h => ?_, fun st r h => ?_⟩
  · by_cases hm : r.sku ∈ st.seen_skus
    · simp [process_item, hm, h]
    · simp [process_item, hm, Finset.card_insert_of_not_mem hm, h]
  · simp [process_item, h]

/-- Witness for the hypothesis-bearing parts of `processed_equals_seen_card`
at a concrete rejecting call. -/
theorem processed_equals_seen_card_witness :
    ((process_item stW recSkuA).1.processed = ((process_item stW recSkuA).1.seen_skus).card)
    ∧ (process_item stW recSkuA).1 = { stW with dropped := stW.dropped + 1 }
    ∧ (process_item stW recSkuA).2 = false :=
  ⟨processed_equals_seen_card.2.1 stW recSkuA (by decide),
   (processed_equals_seen_card.2.2 stW recSkuA (by decide)).1,
   (processed_equals_seen_card.2.2 stW recSkuA (by decide)).2⟩

/-! ## Claim theorems: summary reporting -/

/-- C4 (code bug): `close_spider` pushes the processed and dropped counts,
but for the error count it pushes the pipeline's own `stats['errors']`
counter — which nothing ever increments — overwriting the
`product_page_errors` value that `handle_error` accumulated externally.
After one failed request the external count is 1, yet the reported value
is 0. -/
theorem summary_overwrites_external_error_count :
    (∀ (st : PipelineState) (cs : CrawlerStats),
        close_spider st cs
          = { products_processed := some st.processed,
              products_dropped_duplicates := some st.dropped,
              product_page_errors := st.errors })
    ∧ (handle_error statsInit).product_page_errors = 1
    ∧ (close_spider initPipeline (handle_error statsInit)).product_page_errors = 0 :=
  ⟨fun _ _ => rfl, rfl, rfl⟩

/-! ## Claim theorems: URL Collector -/

theorem mem_foldl_insert (urls : List String) (s : Finset String) (u : String) :
    (u ∈ urls.foldl (fun t v => insert v t) s) ↔ u ∈ s ∨ u ∈ urls := by
  induction urls generalizing s with
  | nil => simp
  | cons a rest ih =>
    simp only [List.foldl_cons, ih, Finset.mem_insert, List.mem_cons]
    tauto

/-- C7: the list serialized by the URL Collector at close is duplicate-free,
sorted ascending, contains exactly the URLs added to `collected_urls`
during the crawl, and is the empty array when nothing was collected. -/
theorem collector_output_sorted_unique_total :
    (∀ urls : List String,
        (closedOutput (collectRun urls)).Nodup
        ∧ List.Sorted (· ≤ ·) (closedOutput (collectRun urls))
        ∧ (∀ u, u ∈ closedOutput (collectRun urls) ↔ u ∈ urls))
    ∧ closedOutput (collectRun []) = [] := by
  refine ⟨fun urls => ⟨Finset.sort_nodup _ _, Finset.sort_sorted _ _, fun u => ?_⟩, ?_⟩
  · rw [closedOutput, Finset.mem_sort, collectRun, mem_foldl_insert]
    simp
  · simp [closedOutput, collectRun, Finset.sort_empty]

/-! ## Claim theorems: product-URL classification -/

theorem startsWithChars_iff (needle hay : List Char) :
    startsWithChars needle hay = true ↔ ∃ post, hay = needle ++ post := by
  induction needle generalizing hay with
  | nil => simp [startsWithChars]
  | cons a as ih =>
    cases hay with
    | nil => simp [startsWithChars]
    | cons b bs =>
      simp only [startsWithChars, Bool.and_eq_true, beq_iff_eq, ih, List.cons_append,
        List.cons.injEq]
      constructor
      · rintro ⟨rfl, post, rfl⟩
        exact ⟨post, rfl, rfl⟩
      · rintro ⟨post, rfl, rfl⟩
        exact ⟨rfl, post, rfl⟩

theorem containsChars_iff (needle hay : List Char) :
    containsChars needle hay = true ↔ ∃ pre post, hay = pre ++ needle ++ post := by
  induction hay with
  | nil =>
    simp only [containsChars, startsWithChars_iff]
    constructor
    · rintro ⟨post, h⟩
      exact ⟨[], post, by simpa using h⟩
    · rintro ⟨pre, post, h⟩
      have h' : pre ++ needle ++ post = [] := h.symm
      rcases List.append_eq_nil.mp h' with ⟨h1, rfl⟩
      rcases List.append_eq_nil.mp h1 with ⟨rfl, rfl⟩
      exact ⟨[], rfl⟩
  | cons c rest ih =>
    simp only [containsChars, Bool.or_eq_true, startsWithChars_iff, ih]
    constructor
    · rintro (⟨post, h⟩ | ⟨pre, post, h⟩)
      · exact ⟨[], post, by simpa using h⟩
      · exact ⟨c :: pre, post, by simp [h]⟩
    · rintro ⟨pre, post, h⟩
      cases pre with
      | nil => exact Or.inl ⟨post, by simpa using h⟩
      | cons p ps =>
        simp only [List.cons_append, List.cons.injEq] at h
        exact Or.inr ⟨ps, post, h.2⟩

/-- C8 (corrected): `parse_sitemap` follows a page location as a product
URL exactly when the substring `-p-` occurs anywhere in the full URL
string — not only in its path — and on the scenario list only
`https://x/a-p-1` is followed. -/
theorem product_filter_matches_full_url :
    (∀ (urls : List String) (u : String),
        u ∈ parse_sitemap urls ↔ u ∈ urls ∧ isProductUrl u = true)
    ∧ (∀ u : String,
        isProductUrl u = true ↔ ∃ pre post, u.data = pre ++ ('-' :: 'p' :: '-' :: post))
    ∧ parse_sitemap ["https://x/a-p-1", "https://x/b"] = ["https://x/a-p-1"] := by
  refine ⟨fun urls u => List.mem_filter, fun u => ?_, by decide⟩
  rw [isProductUrl, pyContains, containsChars_iff]
  constructor
  · rintro ⟨pre, post, h⟩
    exact ⟨pre, post, by simpa using h⟩
  · rintro ⟨pre, post, h⟩
    exact ⟨pre, post, by simpa using h⟩

/-- Counterexample to C8 as stated: this URL carries `-p-` only in its
host, not in its path, yet the collector classifies it as a product URL. -/
theorem product_match_outside_path :
    isProductUrl "https://shop-p-x.example/item" = true
    ∧ specUrlPath "https://shop-p-x.example/item" = "/item"
    ∧ pyContains (specUrlPath "https://shop-p-x.example/item") "-p-" = false := by
  refine ⟨by decide, by decide, by decide⟩

/-! ## Claim theorems: extractor startup -/

/-- C9: when the URL list file is missing or is not valid JSON, startup
issues no requests (hence no records are produced); when the file parses
to a URL list, one request per URL is issued. -/
theorem missing_url_file_yields_no_requests :
    start_requests UrlFile.missing = []
    ∧ start_requests UrlFile.badJson = []
    ∧ (∀ urls : List String, start_requests (UrlFile.ok urls) = urls) :=
  ⟨rfl, rfl, fun _ => rfl⟩

/-! ## Claim theorems: per-page extraction -/

/-- C3 (code bug): on a five-entry breadcrumb trail the interior entries
(`[2:-1]`) are `["Indoor", "Ceiling"]`, but because `ProductLoader`'s
default `TakeFirst()` output processor is not overridden for
`sub_categories`, the loaded field collapses to the first name
`"Indoor"` instead of the ordered list of both. -/
theorem sub_categories_collapsed_to_first :
    (parse_product_data pageCrumbs5).isOk = true
    ∧ ((parse_product_data pageCrumbs5).toOption.bind (fun r => r.sub_categories))
        = some "Indoor"
    ∧ ((crumbs5.drop 2).dropLast.filterMap (fun c => c.name)) = ["Indoor", "Ceiling"]
    ∧ ((parse_product_data pageCrumbs5).toOption.bind (fun r => r.main_category))
        = some "Lighting" := by
  refine ⟨rfl, rfl, rfl, rfl⟩

/-- C5 (code bug): when the bounded wait for the structured-data marker
expires, `parse_product_data` raises the uncaught timeout instead of
proceeding with a partial record, and no record at all is emitted for
the page. -/
theorem marker_timeout_aborts_page :
    parse_product_data pageNoMarker = Except.error PyError.timeout
    ∧ parse pageNoMarker = [Emitted.genObj] :=
  ⟨rfl, rfl⟩

/-- C6 (code bug): the first object `parse` yields for a page is the
generator object produced by calling the generator function
`parse_product_data` — not a `ProductRecord` — even though base
extraction on this page would have produced a record. -/
theorem base_emission_is_not_a_record :
    (parse pageOk).head? = some Emitted.genObj
    ∧ (∀ r : ProductRecord, Emitted.genObj ≠ Emitted.record r)
    ∧ (parse_product_data pageOk).isOk = true :=
  ⟨rfl, fun _ h => Emitted.noConfusion h, rfl⟩

/-- Counterexample to C2 as stated: a variant region with one feature
group of two options both displaying the label `"Red"` emits the
claimed number of records (two), but their `variant_name` values
coincide instead of being pairwise distinct. -/
theorem duplicate_labels_share_variant_name :
    (parse_product_variants pageDupLabels).length = 2
    ∧ ¬ ((parse_product_variants pageDupLabels).map (fun r => r.variant_name)).Nodup := by
  refine ⟨by decide, by decide⟩

/-! ## Cartesian-product lemmas -/

theorem mem_cartesian (gss : List (List Nat)) (c : List Nat) :
    c ∈ cartesian gss ↔ List.Forall₂ (fun x g => x ∈ g) c gss := by
  induction gss generalizing c with
  | nil => simp [cartesian, List.forall₂_nil_right_iff]
  | cons g gs ih =>
    simp only [cartesian, List.mem_flatMap, List.mem_map]
    constructor
    · rintro ⟨x, hx, c', hc', rfl⟩
      exact List.Forall₂.cons hx ((ih c').mp hc')
    · intro h
      cases h with
      | cons hx hrest => exact ⟨_, hx, _, (ih _).mpr hrest, rfl⟩

theorem sum_map_constant {α : Type} (l : List α) (n : Nat) :
    (l.map (fun _ => n)).sum = l.length * n := by
  induction l with
  | nil => simp
  | cons a t ih => simp [ih, Nat.succ_mul, Nat.add_comm]

theorem cartesian_length (gss : List (List Nat)) :
    (cartesian gss).length = (gss.map List.length).prod := by
  induction gss with
  | nil => simp [cartesian]
  | cons g gs ih =>
    simp only [cartesian, List.length_flatMap, List.map_cons, List.prod_cons]
    have hfun : (List.length ∘ fun x => List.map (fun c => x :: c) (cartesian gs))
        = fun _ : Nat => (cartesian gs).length := by
      funext x
      simp [Function.comp]
    rw [hfun, sum_map_constant, ih]

theorem cartesian_nodup (gss : List (List Nat)) (h : ∀ g ∈ gss, g.Nodup) :
    (cartesian gss).Nodup := by
  induction gss with
  | nil => simp [cartesian]
  | cons g gs ih =>
    rw [cartesian, List.nodup_flatMap]
    refine ⟨fun x _ => ?_, ?_⟩
    · exact (ih (fun g' hg' => h g' (List.mem_cons_of_mem _ hg'))).map
        (fun a b hab => by simpa using hab)
    · have hg : g.Nodup := h g (List.mem_cons_self g gs)
      refine hg.imp ?_
      intro a b hab l hla hlb
      simp only [List.mem_map] at hla hlb
      obtain ⟨c1, _, rfl⟩ := hla
      obtain ⟨c2, _, h2⟩ := hlb
      exact hab (by injection h2.symm)

/-! ## Scanner and click-loop lemmas -/

theorem scanFeature_spec (f : Feature) (g0 : List OptionElem × String)
    (h : scanFeature f = some g0) : ∃ cap, g0 = (f.options, featureName cap) := by
  cases hc : f.caption with
  | none => simp [scanFeature, hc] at h
  | some c =>
    rw [scanFeature, hc, Option.map_some'] at h
    injection h with h
    exact ⟨c, h.symm⟩

theorem scanFeatures_spec (fs : List Feature) (gs : List (List OptionElem × String))
    (h : scanFeatures fs = some gs) :
    gs.map (fun g => g.1.length) = fs.map (fun f => f.options.length)
    ∧ ∀ g ∈ gs, ∃ cap : String, g.2 = featureName cap := by
  induction fs generalizing gs with
  | nil =>
    simp only [scanFeatures, Option.some.injEq] at h
    subst h
    simp
  | cons f fs ih =>
    cases hf : scanFeature f with
    | none => rw [scanFeatures, hf] at h; cases h
    | some g0 =>
      cases hrest : scanFeatures fs with
      | none => rw [scanFeatures, hf, hrest] at h; cases h
      | some gs0 =>
        rw [scanFeatures, hf, hrest] at h
        injection h with h
        subst h
        obtain ⟨ih1, ih2⟩ := ih gs0 hrest
        obtain ⟨cap, hcap⟩ := scanFeature_spec f g0 hf
        refine ⟨?_, ?_⟩
        · simp [ih1, hcap]
        · intro g hg
          rcases List.mem_cons.mp hg with rfl | hg
          · exact ⟨cap, by rw [hcap]⟩
          · exact ih2 g hg

theorem combo_bounds (gs : List (List OptionElem × String)) (c : List Nat)
    (hmem : c ∈ cartesian (gs.map (fun g => List.range g.1.length))) :
    List.Forall₂ (fun j (g : List OptionElem × String) => j < g.1.length) c gs := by
  have h := (mem_cartesian _ _).mp hmem
  rw [List.forall₂_map_right_iff] at h
  refine h.imp ?_
  intro a b hab
  exact List.mem_range.mp hab

theorem comboParts_eq_partsOf (gs : List (List OptionElem × String)) (c : List Nat)
    (hc : List.Forall₂ (fun j (g : List OptionElem × String) => j < g.1.length) c gs)
    (hlab : ∀ g ∈ gs, ∀ o ∈ g.1, (o.clickLabel).isSome = true) :
    comboParts gs c = some (partsOf gs c) := by
  induction hc with
  | nil => rfl
  | @cons j g js gs' hj hrest ih =>
    have hget : g.1[j]? = some (g.1.get ⟨j, hj⟩) := by
      rw [← List.get?_eq_getElem?]
      exact List.get?_eq_get hj
    have hsome : ((g.1.get ⟨j, hj⟩).clickLabel).isSome = true :=
      hlab g (List.mem_cons_self g gs') _ (g.1.get_mem j hj)
    obtain ⟨l, hl⟩ := Option.isSome_iff_exists.mp hsome
    have hl' : (g.1[j]).clickLabel = some l := hl
    have ihx := ih (fun g' hg' o ho => hlab g' (List.mem_cons_of_mem _ hg') o ho)
    simp [comboParts, partsOf, hget, hl', ihx]

theorem emitVariants_eq_map (p : Page) (gs : List (List OptionElem × String))
    (base : ProductRecord) (combos : List (List Nat))
    (hbase : parse_product_data p = Except.ok base)
    (hc : ∀ c ∈ combos, comboParts gs c = some (partsOf gs c)) :
    emitVariants p gs combos
      = combos.map (fun c => mkVariantRecord base (pyJoin " | " (partsOf gs c))) := by
  induction combos with
  | nil => rfl
  | cons c rest ih =>
    simp only [emitVariants, hc c (List.mem_cons_self c rest), hbase, List.map_cons]
    rw [ih (fun c' hc' => hc c' (List.mem_cons_of_mem _ hc'))]

theorem partsOf_length (gs : List (List OptionElem × String)) (c : List Nat)
    (hc : List.Forall₂ (fun j (g : List OptionElem × String) => j < g.1.length) c gs) :
    (partsOf gs c).length = gs.length := by
  induction hc with
  | nil => rfl
  | cons hj hrest ih => simp [partsOf, ih]

theorem labelAt_mem (os : List OptionElem) (j : Nat) (hj : j < os.length) :
    ((os.get? j).bind (fun o => o.clickLabel)).getD "" ∈ labelsOf os := by
  rw [List.get?_eq_get hj]
  exact List.mem_map_of_mem _ (os.get_mem j hj)

/-! ## String-surgery lemmas for joined variant names -/

theorem string_data_inj {s t : String} (h : s.data = t.data) : s = t := by
  cases s
  cases t
  exact congrArg String.mk h

theorem string_ne_empty_of_data {s : String} (h : s.data ≠ []) : s ≠ "" := by
  intro he
  exact h (by rw [he])

theorem pyJoin_two (sep p q : String) (rest : List String) :
    pyJoin sep (p :: q :: rest) = p ++ sep ++ pyJoin sep (q :: rest) := rfl

theorem barSep_data : (" | " : String).data = [' ', '|', ' '] := rfl

theorem colonSep_data : (": " : String).data = [':', ' '] := rfl

theorem mem_pyJoin_data (sep : String) (ps : List String) (ch : Char)
    (h : ch ∈ (pyJoin sep ps).data) :
    ch ∈ sep.data ∨ ∃ s ∈ ps, ch ∈ s.data := by
  induction ps with
  | nil => exact absurd h (List.not_mem_nil ch)
  | cons p rest ih =>
    cases rest with
    | nil => exact Or.inr ⟨p, List.mem_cons_self p [], h⟩
    | cons q rest' =>
      rw [pyJoin_two, String.data_append, String.data_append] at h
      rcases List.mem_append.mp h with h1 | h2
      · rcases List.mem_append.mp h1 with ha | hb
        · exact Or.inr ⟨p, List.mem_cons_self _ _, ha⟩
        · exact Or.inl hb
      · rcases ih h2 with h3 | ⟨s, hs, hcs⟩
        · exact Or.inl h3
        · exact Or.inr ⟨s, List.mem_cons_of_mem _ hs, hcs⟩

theorem findallAux_chars (cs : List Char) : ∀ run : List Char,
    (∀ ch ∈ run, isWordOrSpace ch = true) →
    ∀ g ∈ findallAux run cs, ∀ ch ∈ g, isWordOrSpace ch = true := by
  induction cs with
  | nil =>
    intro run _ g hg
    simp [findallAux] at hg
  | cons c rest ih =>
    intro run hrun g hg ch hch
    by_cases h1 : isWordOrSpace c = true
    · rw [findallAux, if_pos h1] at hg
      refine ih (c :: run) ?_ g hg ch hch
      intro x hx
      rcases List.mem_cons.mp hx with rfl | hx
      · exact h1
      · exact hrun x hx
    · rw [findallAux, if_neg h1] at hg
      by_cases h2 : c = ':'
      · rw [if_pos h2] at hg
        by_cases h3 : run.isEmpty = true
        · rw [if_pos h3] at hg
          exact ih [] (fun x hx => absurd hx (List.not_mem_nil x)) g hg ch hch
        · rw [if_neg h3] at hg
          rcases List.mem_cons.mp hg with rfl | hg
          · exact hrun ch (List.mem_reverse.mp hch)
          · exact ih [] (fun x hx => absurd hx (List.not_mem_nil x)) g hg ch hch
      · rw [if_neg h2] at hg
        exact ih [] (fun x hx => absurd hx (List.not_mem_nil x)) g hg ch hch

theorem featureName_chars (cap : String) :
    ∀ ch ∈ (featureName cap).data, isWordOrSpace ch = true := by
  intro ch hch
  rcases mem_pyJoin_data _ _ _ hch with h | ⟨s, hs, hcs⟩
  · have hsp : (" " : String).data = [' '] := rfl
    rw [hsp] at h
    have : ch = ' ' := List.mem_singleton.mp h
    subst this
    decide
  · simp only [List.mem_map] at hs
    obtain ⟨g, hg, rfl⟩ := hs
    exact findallAux_chars cap.data [] (fun x hx => absurd hx (List.not_mem_nil x)) g hg ch hcs

theorem featureName_no_bar (cap : String) : '|' ∉ (featureName cap).data := by
  intro h
  have := featureName_chars cap '|' h
  exact absurd this (by decide)

theorem part_no_bar (nm lbl : String) (hn : '|' ∉ nm.data) (hl : '|' ∉ lbl.data) :
    '|' ∉ (nm ++ ": " ++ lbl).data := by
  intro h
  rw [String.data_append, String.data_append, colonSep_data] at h
  rcases List.mem_append.mp h with h1 | h2
  · rcases List.mem_append.mp h1 with ha | hb
    · exact hn ha
    · exact absurd hb (by decide)
  · exact hl h2

theorem takeWhile_until_bar (a : List Char) (rest : List Char)
    (ha : ∀ ch ∈ a, ch ≠ '|') :
    (a ++ ' ' :: '|' :: rest).takeWhile (fun c => !(c == '|')) = a ++ [' '] := by
  induction a with
  | nil => rfl
  | cons x a' ih =>
    have hx : (!(x == '|')) = true := by
      have hne := ha x (List.mem_cons_self _ _)
      simpa using hne
    rw [List.cons_append, List.takeWhile_cons, if_pos hx,
      ih (fun ch hch => ha ch (List.mem_cons_of_mem _ hch)), List.cons_append]

theorem pyJoin_inj (ps : List String) : ∀ qs : List String,
    ps.length = qs.length →
    (∀ s ∈ ps, '|' ∉ s.data) → (∀ s ∈ qs, '|' ∉ s.data) →
    pyJoin " | " ps = pyJoin " | " qs → ps = qs := by
  induction ps with
  | nil =>
    intro qs hlen _ _ _
    cases qs with
    | nil => rfl
    | cons _ _ => simp at hlen
  | cons p ps' ih =>
    intro qs hlen hp hq h
    cases qs with
    | nil => simp at hlen
    | cons q qs' =>
      cases ps' with
      | nil =>
        cases qs' with
        | nil => simpa [pyJoin] using h
        | cons _ _ => simp at hlen
      | cons p2 ps'' =>
        cases qs' with
        | nil => simp at hlen
        | cons q2 qs'' =>
          have hd : (pyJoin " | " (p :: p2 :: ps'')).data
              = (pyJoin " | " (q :: q2 :: qs'')).data := congrArg String.data h
          rw [pyJoin_two, pyJoin_two, String.data_append, String.data_append,
            String.data_append, String.data_append, barSep_data,
            List.append_assoc, List.append_assoc] at hd
          have hd' : p.data ++ (' ' :: '|' :: (' ' :: (pyJoin " | " (p2 :: ps'')).data))
              = q.data ++ (' ' :: '|' :: (' ' :: (pyJoin " | " (q2 :: qs'')).data)) := hd
          have hpb : ∀ ch ∈ p.data, ch ≠ '|' :=
            fun ch hch he => hp p (List.mem_cons_self _ _) (he ▸ hch)
          have hqb : ∀ ch ∈ q.data, ch ≠ '|' :=
            fun ch hch he => hq q (List.mem_cons_self _ _) (he ▸ hch)
          have ht := congrArg (List.takeWhile (fun c => !(c == '|'))) hd'
          rw [takeWhile_until_bar p.data _ hpb, takeWhile_until_bar q.data _ hqb] at ht
          have hpq : p = q := string_data_inj (List.append_cancel_right ht)
          subst hpq
          have htail : (pyJoin " | " (p2 :: ps'')).data = (pyJoin " | " (q2 :: qs'')).data := by
            have h1 := List.append_cancel_left hd'
            have h2 : [' ', '|', ' '] ++ (pyJoin " | " (p2 :: ps'')).data
                = [' ', '|', ' '] ++ (pyJoin " | " (q2 :: qs'')).data := h1
            exact List.append_cancel_left h2
          have hrest : (p2 :: ps'') = (q2 :: qs'') := by
            refine ih (q2 :: qs'') (by simpa using hlen)
              (fun s hs => hp s (List.mem_cons_of_mem _ hs))
              (fun s hs => hq s (List.mem_cons_of_mem _ hs))
              (string_data_inj htail)
          rw [hrest]

theorem pyJoin_concat_suffix (front : List String) (lastp : String) :
    ∃ Q : List Char, (pyJoin " | " (front ++ [lastp])).data = Q ++ lastp.data := by
  induction front with
  | nil => exact ⟨[], rfl⟩
  | cons p front' ih =>
    obtain ⟨Q', hQ'⟩ := ih
    cases front' with
    | nil =>
      refine ⟨p.data ++ [' ', '|', ' '], ?_⟩
      rw [List.cons_append, List.nil_append, pyJoin_two, String.data_append, String.data_append,
        barSep_data]
      rfl
    | cons r front'' =>
      refine ⟨p.data ++ [' ', '|', ' '] ++ Q', ?_⟩
      rw [List.cons_append] at hQ'
      rw [List.cons_append, List.cons_append, pyJoin_two, String.data_append, String.data_append,
        barSep_data, hQ']
      exact (List.append_assoc _ _ _).symm

theorem dropWhile_append_of_exists (P X : List Char)
    (h : ∃ ch ∈ P, isPySpace ch = false) :
    (P ++ X).dropWhile isPySpace = P.dropWhile isPySpace ++ X := by
  induction P with
  | nil =>
    obtain ⟨ch, hch, _⟩ := h
    exact absurd hch (List.not_mem_nil ch)
  | cons c P' ih =>
    by_cases hc : isPySpace c = true
    · obtain ⟨ch, hch, hws⟩ := h
      have hch' : ch ∈ P' := by
        rcases List.mem_cons.mp hch with rfl | hm
        · rw [hc] at hws
          cases hws
        · exact hm
      rw [List.cons_append, List.dropWhile_cons, if_pos hc, List.dropWhile_cons, if_pos hc]
      exact ih ⟨ch, hch', hws⟩
    · rw [List.cons_append, List.dropWhile_cons, if_neg hc, List.dropWhile_cons, if_neg hc,
        List.cons_append]

theorem pyStripList_decompose (P W : List Char) (x : Char)
    (hP : ∃ ch ∈ P, isPySpace ch = false) (hx : isPySpace x = false) :
    pyStripList (P ++ (W ++ [x])) = P.dropWhile isPySpace ++ (W ++ [x]) := by
  rw [pyStripList, dropWhile_append_of_exists _ _ hP]
  have hrev : (P.dropWhile isPySpace ++ (W ++ [x])).reverse
      = x :: (W.reverse ++ (P.dropWhile isPySpace).reverse) := by
    simp [List.reverse_append]
  rw [hrev, List.dropWhile_cons, if_neg (by simp [hx])]
  simp [List.reverse_append]

theorem dropWhile_length_le (p : Char → Bool) (l : List Char) :
    (l.dropWhile p).length ≤ l.length := by
  induction l with
  | nil => simp
  | cons a t ih =>
    by_cases h : p a = true
    · rw [List.dropWhile_cons, if_pos h]
      exact Nat.le_succ_of_le ih
    · rw [List.dropWhile_cons, if_neg h]

theorem good_last_char (l : String) (hne : l ≠ "") (hstrip : pyStrip l = l) :
    ∃ X' lc, l.data = X' ++ [lc] ∧ isPySpace lc = false := by
  have hd : l.data ≠ [] := by
    intro h
    exact hne (string_data_inj (by rw [h]))
  rcases List.eq_nil_or_concat l.data with h | ⟨X', lc, hX⟩
  · exact absurd h hd
  rw [List.concat_eq_append] at hX
  refine ⟨X', lc, hX, ?_⟩
  by_contra hws
  have hws' : isPySpace lc = true := by
    cases hb : isPySpace lc
    · exact absurd hb hws
    · rfl
  have hlen : (pyStripList l.data).length < l.data.length := by
    rw [pyStripList]
    have hcs : 0 < l.data.length := by
      rw [hX, List.length_append, List.length_cons]
      omega
    rcases hds : l.data.dropWhile isPySpace with _ | ⟨d0, ds'⟩
    · simpa using hcs
    · have hsplit : l.data.takeWhile isPySpace ++ (d0 :: ds') = l.data := by
        rw [← hds]
        exact List.takeWhile_append_dropWhile isPySpace l.data
      have hrevcs : l.data.reverse = lc :: X'.reverse := by
        rw [hX]
        simp
      have hrev2 : (d0 :: ds').reverse ++ (l.data.takeWhile isPySpace).reverse
          = lc :: X'.reverse := by
        rw [← List.reverse_append, hsplit, hrevcs]
      rcases hrevds : (d0 :: ds').reverse with _ | ⟨e0, es⟩
      · exact absurd hrevds (by simp)
      · have he0 : e0 = lc := by
          rw [hrevds, List.cons_append] at hrev2
          injection hrev2
        have hlen1 : ((e0 :: es).dropWhile isPySpace).length ≤ es.length := by
          rw [List.dropWhile_cons, if_pos (he0 ▸ hws')]
          exact dropWhile_length_le _ _
        have hlen2 : es.length = ds'.length := by
          have hl := congrArg List.length hrevds
          rw [List.length_reverse, List.length_cons, List.length_cons] at hl
          omega
        have hlen3 : ds'.length + 1 ≤ l.data.length := by
          have hl := congrArg List.length hsplit
          rw [List.length_append, List.length_cons] at hl
          omega
        rw [List.length_reverse]
        omega
  have hdata : pyStripList l.data = l.data := by
    have := congrArg String.data hstrip
    exact this
  rw [hdata] at hlen
  exact absurd hlen (lt_irrefl _)

theorem takeFirst_singleton (s : String) :
    takeFirst [s] = if s = "" then none else some s := by
  by_cases h : s = ""
  · simp [takeFirst, h]
  · simp [takeFirst, h]

theorem partsOf_mem (gs : List (List OptionElem × String)) (c : List Nat) (part : String)
    (hc : List.Forall₂ (fun j (g : List OptionElem × String) => j < g.1.length) c gs)
    (hmem : part ∈ partsOf gs c) :
    ∃ g ∈ gs, ∃ l ∈ labelsOf g.1, part = g.2 ++ ": " ++ l := by
  induction hc with
  | nil => simp [partsOf] at hmem
  | @cons j g js gs' hj hrest ih =>
    simp only [partsOf, List.mem_cons] at hmem
    rcases hmem with rfl | hmem'
    · exact ⟨g, List.mem_cons_self g gs', _, labelAt_mem g.1 j hj, rfl⟩
    · obtain ⟨g', hg', l, hl, hform⟩ := ih hmem'
      exact ⟨g', List.mem_cons_of_mem _ hg', l, hl, hform⟩

theorem labelAt_inj (os : List OptionElem) (j1 j2 : Nat)
    (h1 : j1 < os.length) (h2 : j2 < os.length)
    (hnd : (labelsOf os).Nodup)
    (heq : ((os.get? j1).bind (fun o => o.clickLabel)).getD ""
         = ((os.get? j2).bind (fun o => o.clickLabel)).getD "") : j1 = j2 := by
  have hl1 : (labelsOf os)[j1]? = some (((os.get? j1).bind (fun o => o.clickLabel)).getD "") := by
    rw [labelsOf, List.getElem?_map, ← List.get?_eq_getElem?, List.get?_eq_get h1]
    rfl
  have hl2 : (labelsOf os)[j2]? = some (((os.get? j2).bind (fun o => o.clickLabel)).getD "") := by
    rw [labelsOf, List.getElem?_map, ← List.get?_eq_getElem?, List.get?_eq_get h2]
    rfl
  have hlen1 : j1 < (labelsOf os).length := by
    rw [labelsOf, List.length_map]
    exact h1
  apply List.getElem?_inj hlen1 hnd
  rw [hl1, hl2, heq]

theorem partsOf_inj (gs : List (List OptionElem × String)) : ∀ c1 c2 : List Nat,
    List.Forall₂ (fun j (g : List OptionElem × String) => j < g.1.length) c1 gs →
    List.Forall₂ (fun j (g : List OptionElem × String) => j < g.1.length) c2 gs →
    (∀ g ∈ gs, goodGroup g) →
    partsOf gs c1 = partsOf gs c2 → c1 = c2 := by
  induction gs with
  | nil =>
    intro c1 c2 h1 h2 _ _
    rw [List.forall₂_nil_right_iff.mp h1, List.forall₂_nil_right_iff.mp h2]
  | cons g gs' ih =>
    intro c1 c2 h1 h2 hgood heq
    cases h1 with
    | @cons j1 _ js1 _ hj1 hrest1 =>
      cases h2 with
      | @cons j2 _ js2 _ hj2 hrest2 =>
        simp only [partsOf, List.cons.injEq] at heq
        obtain ⟨hhead, htail⟩ := heq
        have hlbl : ((g.1.get? j1).bind (fun o => o.clickLabel)).getD ""
            = ((g.1.get? j2).bind (fun o => o.clickLabel)).getD "" := by
          have hdat := congrArg String.data hhead
          rw [String.data_append, String.data_append, String.data_append, String.data_append,
            List.append_assoc, List.append_assoc] at hdat
          exact string_data_inj (List.append_cancel_left (List.append_cancel_left hdat))
        have hj := labelAt_inj g.1 j1 j2 hj1 hj2 (hgood g (List.mem_cons_self _ _)).1 hlbl
        have hjs := ih js1 js2 hrest1 hrest2
          (fun g' hg' => hgood g' (List.mem_cons_of_mem _ hg')) htail
        rw [hj, hjs]

theorem vn_decompose (g : List OptionElem × String) (gs' : List (List OptionElem × String))
    (c : List Nat)
    (hgood : ∀ gg ∈ g :: gs', goodGroup gg)
    (hc : List.Forall₂ (fun j (gg : List OptionElem × String) => j < gg.1.length) c (g :: gs')) :
    ∃ T : List Char,
      (pyJoin " | " (partsOf (g :: gs') c)).data = (g.2.data ++ [':']) ++ (' ' :: T)
      ∧ (pyStrip (pyJoin " | " (partsOf (g :: gs') c))).data
          = (g.2.data ++ [':']).dropWhile isPySpace ++ (' ' :: T) := by
  cases hc with
  | @cons j _ js _ hj hrest =>
    have hstep : partsOf (g :: gs') (j :: js)
        = (g.2 ++ ": " ++ (((g.1.get? j).bind (fun o => o.clickLabel)).getD ""))
          :: partsOf gs' js := rfl
    obtain ⟨T, hraw⟩ :
        ∃ T : List Char, (pyJoin " | " (partsOf (g :: gs') (j :: js))).data
          = (g.2.data ++ [':']) ++ (' ' :: T) := by
      rcases hps : partsOf gs' js with _ | ⟨q, rest⟩
      · refine ⟨(((g.1.get? j).bind (fun o => o.clickLabel)).getD "").data, ?_⟩
        rw [hstep, hps]
        simp [pyJoin, String.data_append, colonSep_data, List.append_assoc]
      · refine ⟨(((g.1.get? j).bind (fun o => o.clickLabel)).getD "").data
            ++ (' ' :: '|' :: ' ' :: (pyJoin " | " (q :: rest)).data), ?_⟩
        rw [hstep, hps, pyJoin_two, String.data_append, String.data_append, String.data_append,
          String.data_append, barSep_data, colonSep_data]
        simp [List.append_assoc]
    have hne : partsOf (g :: gs') (j :: js) ≠ [] := by
      rw [hstep]
      exact List.cons_ne_nil _ _
    rcases List.eq_nil_or_concat (partsOf (g :: gs') (j :: js)) with hnil | ⟨front, lastp, hconcat⟩
    · exact absurd hnil hne
    rw [List.concat_eq_append] at hconcat
    have hlastmem : lastp ∈ partsOf (g :: gs') (j :: js) := by
      rw [hconcat]
      exact List.mem_append_right _ (List.mem_singleton.mpr rfl)
    obtain ⟨gg, hgg, lbl, hlbl, hform⟩ :=
      partsOf_mem (g :: gs') (j :: js) lastp (List.Forall₂.cons hj hrest) hlastmem
    have hgl : goodLabel lbl := (hgood gg hgg).2 lbl hlbl
    obtain ⟨Y, lc, hY, hlc⟩ := good_last_char lbl hgl.1 hgl.2.1
    obtain ⟨Q, hQ⟩ := pyJoin_concat_suffix front lastp
    have hend : ∃ M : List Char,
        (pyJoin " | " (partsOf (g :: gs') (j :: js))).data = M ++ [lc] := by
      refine ⟨Q ++ (gg.2.data ++ [':', ' '] ++ Y), ?_⟩
      rw [hconcat, hQ, hform, String.data_append, String.data_append, colonSep_data, hY]
      simp [List.append_assoc]
    obtain ⟨M, hM⟩ := hend
    rcases List.eq_nil_or_concat (' ' :: T) with habs | ⟨W, x, hWx⟩
    · exact absurd habs (List.cons_ne_nil _ _)
    rw [List.concat_eq_append] at hWx
    have hxlc : x = lc := by
      have hfull : (g.2.data ++ [':'] ++ W) ++ [x] = M ++ [lc] := by
        rw [List.append_assoc, ← hWx, ← hraw, hM]
      have hsing := (List.append_inj' hfull rfl).2
      simpa using hsing
    have hxws : isPySpace x = false := by
      rw [hxlc]
      exact hlc
    have hstrip : (pyStrip (pyJoin " | " (partsOf (g :: gs') (j :: js)))).data
        = (g.2.data ++ [':']).dropWhile isPySpace ++ (' ' :: T) := by
      have hP : ∃ ch ∈ g.2.data ++ [':'], isPySpace ch = false :=
        ⟨':', List.mem_append_right _ (List.mem_singleton.mpr rfl), by decide⟩
      show pyStripList (pyJoin " | " (partsOf (g :: gs') (j :: js))).data
        = (g.2.data ++ [':']).dropWhile isPySpace ++ (' ' :: T)
      rw [hraw, hWx, pyStripList_decompose _ _ _ hP hxws]
    exact ⟨T, hraw, hstrip⟩

/-- C2 (amended): for a page whose variant region scans to groups
`gs` (captions present) with every option label element present, and
whose base re-extraction succeeds, exactly k1 × k2 × ... × kN variant
records are emitted, where k1..kN are the option counts of the page's
feature groups; and when within each group the displayed labels are
pairwise distinct, non-empty, stripped and free of the `|` separator,
the `variant_name` values of the emitted records are pairwise
distinct. (As stated the claim is false: duplicate displayed labels
yield duplicate `variant_name` values, see the counterexample.) -/
theorem variant_count_and_name_distinctness
    (p : Page) (fs : List Feature) (gs : List (List OptionElem × String)) (r : ProductRecord)
    (hreg : p.variantRegion = some fs)
    (hscan : scanFeatures fs = some gs)
    (hbase : parse_product_data p = Except.ok r)
    (hlab : ∀ g ∈ gs, ∀ o ∈ g.1, (o.clickLabel).isSome = true) :
    (parse_product_variants p).length = (fs.map (fun f => f.options.length)).prod
    ∧ ((∀ g ∈ gs, goodGroup g) →
        ((parse_product_variants p).map (fun v => v.variant_name)).Nodup) := by
  have hpv : parse_product_variants p
      = emitVariants p gs (cartesian (gs.map (fun g => List.range g.1.length))) := by
    simp only [parse_product_variants, hreg, hscan]
  have hbounds : ∀ c ∈ cartesian (gs.map (fun g => List.range g.1.length)),
      List.Forall₂ (fun j (g : List OptionElem × String) => j < g.1.length) c gs :=
    fun c hc => combo_bounds gs c hc
  have hcp : ∀ c ∈ cartesian (gs.map (fun g => List.range g.1.length)),
      comboParts gs c = some (partsOf gs c) :=
    fun c hc => comboParts_eq_partsOf gs c (hbounds c hc) hlab
  have hmap := emitVariants_eq_map p gs r
    (cartesian (gs.map (fun g => List.range g.1.length))) hbase hcp
  refine ⟨?_, ?_⟩
  · rw [hpv, hmap, List.length_map, cartesian_length, List.map_map]
    have hfun : (List.length ∘ fun g : List OptionElem × String => List.range g.1.length)
        = fun g : List OptionElem × String => g.1.length := by
      funext g
      simp
    rw [hfun, (scanFeatures_spec fs gs hscan).1]
  · intro hgood
    rw [hpv, hmap, List.map_map]
    have hnames : ∀ g ∈ gs, '|' ∉ (g.2).data := by
      intro g hg
      obtain ⟨cap, hcap⟩ := (scanFeatures_spec fs gs hscan).2 g hg
      rw [hcap]
      exact featureName_no_bar cap
    refine List.Nodup.map_on ?_ (cartesian_nodup _ ?_)
    · intro c1 hc1 c2 hc2 hfeq
      cases gs with
      | nil =>
        rw [List.forall₂_nil_right_iff.mp (hbounds c1 hc1),
          List.forall₂_nil_right_iff.mp (hbounds c2 hc2)]
      | cons g gs' =>
        have hb1 := hbounds c1 hc1
        have hb2 := hbounds c2 hc2
        obtain ⟨T1, hraw1, hstrip1⟩ := vn_decompose g gs' c1 hgood hb1
        obtain ⟨T2, hraw2, hstrip2⟩ := vn_decompose g gs' c2 hgood hb2
        have hne1 : pyStrip (pyJoin " | " (partsOf (g :: gs') c1)) ≠ "" := by
          apply string_ne_empty_of_data
          rw [hstrip1]
          simp
        have hne2 : pyStrip (pyJoin " | " (partsOf (g :: gs') c2)) ≠ "" := by
          apply string_ne_empty_of_data
          rw [hstrip2]
          simp
        have hfeq' : takeFirst [pyStrip (pyJoin " | " (partsOf (g :: gs') c1))]
            = takeFirst [pyStrip (pyJoin " | " (partsOf (g :: gs') c2))] := by
          simpa [mkVariantRecord, Function.comp] using hfeq
        rw [takeFirst_singleton, takeFirst_singleton, if_neg hne1, if_neg hne2] at hfeq'
        have hstripEq := Option.some.inj hfeq'
        have hdata := congrArg String.data hstripEq
        rw [hstrip1, hstrip2] at hdata
        have hT : (' ' :: T1 : List Char) = ' ' :: T2 := List.append_cancel_left hdata
        have hrawEq : (pyJoin " | " (partsOf (g :: gs') c1)).data
            = (pyJoin " | " (partsOf (g :: gs') c2)).data := by
          rw [hraw1, hraw2, hT]
        have hbar1 : ∀ s ∈ partsOf (g :: gs') c1, '|' ∉ s.data := by
          intro s hsmem
          obtain ⟨gg, hgg, lbl, hlbl, hform⟩ := partsOf_mem _ _ s hb1 hsmem
          rw [hform]
          exact part_no_bar _ _ (hnames gg hgg) ((hgood gg hgg).2 lbl hlbl).2.2
        have hbar2 : ∀ s ∈ partsOf (g :: gs') c2, '|' ∉ s.data := by
          intro s hsmem
          obtain ⟨gg, hgg, lbl, hlbl, hform⟩ := partsOf_mem _ _ s hb2 hsmem
          rw [hform]
          exact part_no_bar _ _ (hnames gg hgg) ((hgood gg hgg).2 lbl hlbl).2.2
        have hparts : partsOf (g :: gs') c1 = partsOf (g :: gs') c2 :=
          pyJoin_inj _ _ (by rw [partsOf_length _ _ hb1, partsOf_length _ _ hb2])
            hbar1 hbar2 (string_data_inj hrawEq)
        exact partsOf_inj (g :: gs') c1 c2 hb1 hb2 hgood hparts
    · intro gl hgl
      simp only [List.mem_map] at hgl
      obtain ⟨g', _, hgl'⟩ := hgl
      rw [← hgl']
      exact List.nodup_range _

/-- Witness for `variant_count_and_name_distinctness` at a page whose
single feature group has two distinct well-behaved labels. -/
theorem variant_count_witness :
    (parse_product_variants pageGoodVariants).length
      = ([goodFeature].map (fun f => f.options.length)).prod
    ∧ ((parse_product_variants pageGoodVariants).map (fun v => v.variant_name)).Nodup := by
  have h := variant_count_and_name_distinctness pageGoodVariants [goodFeature] gsGood
    {} rfl (by decide) rfl (by decide)
  refine ⟨h.1, h.2 ?_⟩
  intro g hg
  rw [List.mem_singleton.mp hg]
  refine ⟨by decide, ?_⟩
  intro l hl
  have hl' : l ∈ ["Red", "Blue"] := hl
  rcases List.mem_cons.mp hl' with rfl | hl''
  · exact ⟨by decide, by decide, by decide⟩
  · rcases List.mem_cons.mp hl'' with rfl | hl3
    · exact ⟨by decide, by decide, by decide⟩
    · exact absurd hl3 (List.not_mem_nil l)

end ProductScraper
